import Mathlib

/-!
Verification of the compression format-abstraction layer of avbroot
(`src/avbroot/src/format/compression.rs`).

The Rust code is shallowly embedded: byte sinks (`W: Write`) are modelled as a
state type `σ` together with a `write_all` function `σ → List Nat → σ × Bool`
(post-state plus success flag); byte sources (`R: Read + Seek`) are modelled as
a `ByteStream` (full contents plus a cursor).  The raw gzip and LZ4
block-compression codecs are trusted primitives and appear as function
parameters, constrained only by their compress/decompress contracts.
-/

namespace AvbrootCompression

set_option autoImplicit false

/-- `8 * 1024 * 1024`: the single supported block size of the legacy LZ4
format (`buf: vec![0u8; 8 * 1024 * 1024]` in `Lz4LegacyEncoder::new`). -/
def CAPACITY : Nat := 8 * 1024 * 1024

/-- `GZIP_MAGIC: &[u8; 2] = b"\x1f\x8b"`. -/
def GZIP_MAGIC : List Nat := [0x1f, 0x8b]

/-- `LZ4_LEGACY_MAGIC: &[u8; 4] = b"\x02\x21\x4c\x18"`. -/
def LZ4_LEGACY_MAGIC : List Nat := [0x02, 0x21, 0x4c, 0x18]

/-- The crate error enum: `Error { UnknownFormat, IoError(..) }`. -/
inductive Error where
  | UnknownFormat
  | IoError
deriving DecidableEq, Repr

/-- Abnormal outcomes of encoder operations: an I/O error propagated from the
sink, or a panic (`unwrap` on an empty writer slot). -/
inductive EncErr where
  | panic
  | ioError
deriving DecidableEq, Repr

/-- Little-endian 32-bit encoding, as produced by
`write_u32::<LittleEndian>(compressed.len() as u32)`.  The `as u32` truncation
is reflected by taking only the four base-256 digits. -/
def le32 (n : Nat) : List Nat :=
  [n % 256, n / 256 % 256, n / 65536 % 256, n / 16777216 % 256]

/-- One block record of the legacy LZ4 container: 4-byte little-endian length
of the compressed payload, then the compressed payload. -/
def blockRecord (c : List Nat) : List Nat := le32 c.length ++ c

/-- State of `Lz4LegacyEncoder<W>`: the optional sink slot and the filled
portion of the 8 MiB buffer.  `buf` models `self.buf[..self.n_filled]`; the
bytes of the Rust buffer past `n_filled` are never read, so they are not
represented.  The capacity `self.buf.len()` is the constant `CAPACITY`. -/
structure Lz4LegacyEncoder (σ : Type) where
  writer : Option σ
  buf : List Nat
deriving DecidableEq, Repr

/-- `self.n_filled` of the Rust encoder. -/
def Lz4LegacyEncoder.n_filled {σ : Type} (e : Lz4LegacyEncoder σ) : Nat :=
  e.buf.length

/-- `Lz4LegacyEncoder::new`: write the 4-byte legacy magic immediately, then
start with an empty buffer.  A failed magic write propagates as an I/O
error. -/
def Lz4LegacyEncoder.new {σ : Type} (wr : σ → List Nat → σ × Bool) (w : σ) :
    Except EncErr (Lz4LegacyEncoder σ) :=
  let p := wr w LZ4_LEGACY_MAGIC
  if p.2 then .ok { writer := some p.1, buf := [] } else .error .ioError

/-- `Lz4LegacyEncoder::write_block(force)`: no-op unless forced or the buffer
is exactly full; otherwise compress the filled portion with the raw block
codec `lz4c`, write the length prefix and the compressed bytes, and reset the
fill counter.  The `self.writer.as_mut().unwrap()` panic is modelled as the
`EncErr.panic` outcome. -/
def Lz4LegacyEncoder.write_block {σ : Type} (wr : σ → List Nat → σ × Bool)
    (lz4c : List Nat → List Nat) (force : Bool) (e : Lz4LegacyEncoder σ) :
    Lz4LegacyEncoder σ × Option EncErr :=
  if force = false ∧ e.buf.length < CAPACITY then (e, none)
  else
    match e.writer with
    | none => (e, some .panic)
    | some w =>
      let compressed := lz4c e.buf
      let p1 := wr w (le32 compressed.length)
      if p1.2 = false then ({ writer := some p1.1, buf := e.buf }, some .ioError)
      else
        let p2 := wr p1.1 compressed
        if p2.2 = false then ({ writer := some p2.1, buf := e.buf }, some .ioError)
        else ({ writer := some p2.1, buf := [] }, none)

/-- If a non-forced `write_block` succeeds, either the buffer was not full and
nothing happened, or a block was emitted and the buffer is now empty. -/
theorem write_block_false_none {σ : Type} (wr : σ → List Nat → σ × Bool)
    (lz4c : List Nat → List Nat) (e e' : Lz4LegacyEncoder σ)
    (h : Lz4LegacyEncoder.write_block wr lz4c false e = (e', none)) :
    (e.buf.length < CAPACITY ∧ e' = e) ∨ e'.buf = [] := by
  unfold Lz4LegacyEncoder.write_block at h
  split at h
  · rename_i hc
    left
    exact ⟨hc.2, (Prod.mk.injEq _ _ _ _ ▸ h).1.symm⟩
  · rename_i hc
    cases hw : e.writer with
    | none => rw [hw] at h; simp at h
    | some w =>
      rw [hw] at h
      simp only at h
      split at h
      · simp at h
      · split at h
        · simp at h
        · right
          have := (Prod.mk.injEq _ _ _ _ ▸ h).1
          rw [← this]

/-- The `Write::write` impl of `Lz4LegacyEncoder`: copy
`min(input.len, capacity - n_filled)` bytes into the buffer, attempt a
non-forced block flush, and repeat until the input is consumed, propagating the
first flush error.  (The Rust method additionally returns the total byte
count, which always equals the input length.) -/
def Lz4LegacyEncoder.write {σ : Type} (wr : σ → List Nat → σ × Bool)
    (lz4c : List Nat → List Nat) (e : Lz4LegacyEncoder σ) (input : List Nat) :
    Lz4LegacyEncoder σ × Option EncErr :=
  if input = [] then (e, none)
  else
    let t := min input.length (CAPACITY - e.buf.length)
    let r := Lz4LegacyEncoder.write_block wr lz4c false
      { e with buf := e.buf ++ input.take t }
    if r.2.isSome then r
    else Lz4LegacyEncoder.write wr lz4c r.1 (input.drop t)
termination_by 2 * input.length + (if CAPACITY ≤ e.buf.length then 1 else 0)
decreasing_by
  rename_i hin hr
  have hcap : 0 < CAPACITY := by norm_num [CAPACITY]
  have hlen : 0 < input.length := List.length_pos.mpr hin
  have hnone : r.2 = none := Option.not_isSome_iff_eq_none.mp hr
  have hpair : Lz4LegacyEncoder.write_block wr lz4c false
      { e with buf := e.buf ++ input.take t } = (r.1, none) := by
    rw [← hnone]
  rcases write_block_false_none _ _ _ _ hpair with ⟨hlt, heq⟩ | hnil
  · have hbuf : r.1.buf.length < CAPACITY := by rw [heq]; exact hlt
    have ht : 1 ≤ t := by
      by_contra hle
      have ht0 : t = 0 := by omega
      have : ({ e with buf := e.buf ++ input.take t } :
          Lz4LegacyEncoder σ).buf.length = e.buf.length + t := by
        simp [List.length_take]
        omega
      have hfull : CAPACITY ≤ e.buf.length := by
        simp only [t] at ht0 ⊢
        omega
      rw [heq] at hbuf
      simp [List.length_append, List.length_take] at hbuf
      omega
    simp only [List.length_drop]
    split <;> split <;> omega
  · have hind : ¬ CAPACITY ≤ r.1.buf.length := by
      rw [hnil]; simp; omega
    simp only [List.length_drop, if_neg hind]
    by_cases htpos : 1 ≤ t
    · split <;> omega
    · have ht0 : t = 0 := by omega
      have hfull : CAPACITY ≤ e.buf.length := by
        simp only [t] at ht0
        omega
      rw [if_pos hfull]
      omega

/-- The `Write::flush` impl: a non-forced `write_block`. -/
def Lz4LegacyEncoder.flush {σ : Type} (wr : σ → List Nat → σ × Bool)
    (lz4c : List Nat → List Nat) (e : Lz4LegacyEncoder σ) :
    Lz4LegacyEncoder σ × Option EncErr :=
  Lz4LegacyEncoder.write_block wr lz4c false e

/-- `Lz4LegacyEncoder::finish`: force a final block flush, then take the
writer out of its slot and return it. -/
def Lz4LegacyEncoder.finish {σ : Type} (wr : σ → List Nat → σ × Bool)
    (lz4c : List Nat → List Nat) (e : Lz4LegacyEncoder σ) : Except EncErr σ :=
  match Lz4LegacyEncoder.write_block wr lz4c true e with
  | (_, some err) => .error err
  | (e1, none) =>
    match e1.writer with
    | none => .error .panic
    | some w => .ok w

/-- The `Drop` impl: if the sink slot is still occupied, attempt a forced
block flush and discard its error (`let _ = self.write_block(true)`); the
resulting state (not an error) is all that remains observable. -/
def Lz4LegacyEncoder.dropEnc {σ : Type} (wr : σ → List Nat → σ × Bool)
    (lz4c : List Nat → List Nat) (e : Lz4LegacyEncoder σ) : Lz4LegacyEncoder σ :=
  if e.writer.isSome then (Lz4LegacyEncoder.write_block wr lz4c true e).1 else e

/-- The pure in-memory sink (a `Vec<u8>`): `write_all` appends and always
succeeds. -/
def listWr (s : List Nat) (bs : List Nat) : List Nat × Bool := (s ++ bs, true)

/-- The full `CAPACITY`-sized chunks of a byte stream, in order. -/
def chunksFull (p : List Nat) : List (List Nat) :=
  if CAPACITY ≤ p.length then p.take CAPACITY :: chunksFull (p.drop CAPACITY)
  else []
termination_by p.length
decreasing_by
  have hcap : 0 < CAPACITY := by norm_num [CAPACITY]
  simp only [List.length_drop]
  omega

/-- The trailing partial chunk of a byte stream (what remains after all full
`CAPACITY`-sized chunks). -/
def remChunk (p : List Nat) : List Nat :=
  if CAPACITY ≤ p.length then remChunk (p.drop CAPACITY) else p
termination_by p.length
decreasing_by
  have hcap : 0 < CAPACITY := by norm_num [CAPACITY]
  simp only [List.length_drop]
  omega

/-- Concatenation of a list of byte lists. -/
def concatAll (l : List (List Nat)) : List Nat :=
  l.foldr (fun a b => a ++ b) []

@[simp]
theorem concatAll_nil : concatAll [] = [] := rfl

@[simp]
theorem concatAll_cons (a : List Nat) (l : List (List Nat)) :
    concatAll (a :: l) = a ++ concatAll l := rfl

theorem concatAll_append (l₁ l₂ : List (List Nat)) :
    concatAll (l₁ ++ l₂) = concatAll l₁ ++ concatAll l₂ := by
  induction l₁ with
  | nil => simp
  | cons a l ih => simp [ih]

/-- The bytes the Legacy Block Encoder appends to the sink for the full
chunks of a stream: one block record per chunk, each compressed with the raw
block codec. -/
def emittedBlocks (lz4c : List Nat → List Nat) (p : List Nat) : List Nat :=
  concatAll ((chunksFull p).map (fun c => blockRecord (lz4c c)))

theorem chunksFull_eq_nil (p : List Nat) (h : p.length < CAPACITY) :
    chunksFull p = [] := by
  unfold chunksFull
  rw [if_neg (by omega)]

theorem remChunk_eq_self (p : List Nat) (h : p.length < CAPACITY) :
    remChunk p = p := by
  unfold remChunk
  rw [if_neg (by omega)]

theorem chunksFull_eq_cons (p : List Nat) (h : CAPACITY ≤ p.length) :
    chunksFull p = p.take CAPACITY :: chunksFull (p.drop CAPACITY) := by
  conv_lhs => unfold chunksFull
  rw [if_pos h]

theorem remChunk_eq_drop (p : List Nat) (h : CAPACITY ≤ p.length) :
    remChunk p = remChunk (p.drop CAPACITY) := by
  conv_lhs => unfold remChunk
  rw [if_pos h]

theorem remChunk_length_lt (p : List Nat) : (remChunk p).length < CAPACITY := by
  generalize hn : p.length = n
  induction n using Nat.strong_induction_on generalizing p with
  | _ n ih =>
    by_cases h : CAPACITY ≤ p.length
    · rw [remChunk_eq_drop p h]
      have hcap : 0 < CAPACITY := by norm_num [CAPACITY]
      exact ih (p.drop CAPACITY).length (by simp; omega) _ rfl
    · rw [remChunk_eq_self p (by omega)]
      omega

theorem concatAll_chunksFull (p : List Nat) :
    concatAll (chunksFull p) ++ remChunk p = p := by
  generalize hn : p.length = n
  induction n using Nat.strong_induction_on generalizing p with
  | _ n ih =>
    by_cases h : CAPACITY ≤ p.length
    · rw [chunksFull_eq_cons p h, remChunk_eq_drop p h]
      have hcap : 0 < CAPACITY := by norm_num [CAPACITY]
      have := ih (p.drop CAPACITY).length (by simp; omega) (p.drop CAPACITY) rfl
      simp only [concatAll_cons, List.append_assoc, this]
      exact List.take_append_drop CAPACITY p
    · rw [chunksFull_eq_nil p (by omega), remChunk_eq_self p (by omega)]
      simp

theorem chunksFull_mem_length {p c : List Nat} (h : c ∈ chunksFull p) :
    c.length ≤ CAPACITY := by
  generalize hn : p.length = n
  induction n using Nat.strong_induction_on generalizing p with
  | _ n ih =>
    by_cases hc : CAPACITY ≤ p.length
    · rw [chunksFull_eq_cons p hc] at h
      rcases List.mem_cons.mp h with h1 | h2
      · rw [h1]
        simp [List.length_take]
      · have hcap : 0 < CAPACITY := by norm_num [CAPACITY]
        exact ih (p.drop CAPACITY).length (by simp; omega) h2 rfl
    · rw [chunksFull_eq_nil p (by omega)] at h
      simp at h

/-- Splitting the stream at any point refines the chunk decomposition: the
chunks of `q ++ r` are the chunks of `q` followed by the chunks of the
leftover of `q` prepended to `r`. -/
theorem chunksFull_append (q r : List Nat) :
    chunksFull (q ++ r) = chunksFull q ++ chunksFull (remChunk q ++ r) ∧
    remChunk (q ++ r) = remChunk (remChunk q ++ r) := by
  generalize hn : q.length = n
  induction n using Nat.strong_induction_on generalizing q with
  | _ n ih =>
    by_cases h : CAPACITY ≤ q.length
    · have h' : CAPACITY ≤ (q ++ r).length := by simp; omega
      have htake : (q ++ r).take CAPACITY = q.take CAPACITY := by
        rw [List.take_append_of_le_length h]
      have hdrop : (q ++ r).drop CAPACITY = q.drop CAPACITY ++ r := by
        rw [List.drop_append_of_le_length h]
      have hcap : 0 < CAPACITY := by norm_num [CAPACITY]
      have := ih (q.drop CAPACITY).length (by simp; omega) (q.drop CAPACITY) rfl
      constructor
      · rw [chunksFull_eq_cons (q ++ r) h', htake, hdrop, this.1,
          chunksFull_eq_cons q h, remChunk_eq_drop q h]
        simp
      · rw [remChunk_eq_drop (q ++ r) h', hdrop, this.2, remChunk_eq_drop q h]
    · rw [chunksFull_eq_nil q (by omega), remChunk_eq_self q (by omega)]
      simp

/-- `write_block` with an unfilled buffer and no forcing is a pure no-op. -/
theorem write_block_noop {σ : Type} (wr : σ → List Nat → σ × Bool)
    (lz4c : List Nat → List Nat) (e : Lz4LegacyEncoder σ)
    (h : e.buf.length < CAPACITY) :
    Lz4LegacyEncoder.write_block wr lz4c false e = (e, none) := by
  unfold Lz4LegacyEncoder.write_block
  rw [if_pos ⟨rfl, h⟩]

/-- On the pure list sink, an effective `write_block` appends exactly one
block record and empties the buffer. -/
theorem write_block_listWr_emit (lz4c : List Nat → List Nat)
    (w : List Nat) (p : List Nat) (force : Bool)
    (h : force = true ∨ CAPACITY ≤ p.length) :
    Lz4LegacyEncoder.write_block listWr lz4c force ⟨some w, p⟩ =
      (⟨some (w ++ blockRecord (lz4c p)), []⟩, none) := by
  unfold Lz4LegacyEncoder.write_block
  have hc : ¬ (force = false ∧
      (Lz4LegacyEncoder.buf ⟨some w, p⟩).length < CAPACITY) := by
    rcases h with h | h
    · rw [h]; simp
    · intro hx
      exact absurd hx.2 (by simp; omega)
  rw [if_neg hc]
  simp [listWr, blockRecord, List.append_assoc]

/-- One-step unfolding of `Lz4LegacyEncoder.write`. -/
theorem write_eq {σ : Type} (wr : σ → List Nat → σ × Bool)
    (lz4c : List Nat → List Nat) (e : Lz4LegacyEncoder σ) (input : List Nat) :
    Lz4LegacyEncoder.write wr lz4c e input =
      if input = [] then (e, none)
      else
        let t := min input.length (CAPACITY - e.buf.length)
        let r := Lz4LegacyEncoder.write_block wr lz4c false
          { e with buf := e.buf ++ input.take t }
        if r.2.isSome then r
        else Lz4LegacyEncoder.write wr lz4c r.1 (input.drop t) := by
  conv_lhs => unfold Lz4LegacyEncoder.write

/-- Normal form of `write` on the pure list sink, from any state whose buffer
is not full: the sink receives one block record per full chunk of
`buffered ++ input`, and the new buffer is the trailing partial chunk. -/
theorem write_norm (lz4c : List Nat → List Nat) (data w p : List Nat)
    (hp : p.length < CAPACITY) :
    Lz4LegacyEncoder.write listWr lz4c ⟨some w, p⟩ data =
      (⟨some (w ++ emittedBlocks lz4c (p ++ data)), remChunk (p ++ data)⟩,
        none) := by
  generalize hn : data.length = n
  induction n using Nat.strong_induction_on generalizing data w p with
  | _ n ih =>
    by_cases hd : data = []
    · subst hd
      rw [write_eq, if_pos rfl]
      simp [emittedBlocks, chunksFull_eq_nil p hp, remChunk_eq_self p hp]
    · rw [write_eq, if_neg hd]
      simp only
      set t := min data.length (CAPACITY - p.length) with htdef
      have hdl : 0 < data.length := List.length_pos.mpr hd
      have ht1 : 1 ≤ t := by omega
      have htle : t ≤ data.length := by omega
      have hlen1 : (p ++ data.take t).length = p.length + t := by
        simp [List.length_take]
        omega
      have hsplit : (p ++ data.take t) ++ data.drop t = p ++ data := by
        rw [List.append_assoc, List.take_append_drop]
      by_cases hfull : p.length + t = CAPACITY
      · rw [write_block_listWr_emit lz4c w (p ++ data.take t) false
          (Or.inr (by omega))]
        simp only [Option.isSome_none, Bool.false_eq_true, if_false]
        have := ih (data.drop t).length (by simp; omega) (data.drop t)
          (w ++ blockRecord (lz4c (p ++ data.take t))) [] (by
            norm_num [CAPACITY]) rfl
        rw [this]
        have hcapfull : CAPACITY ≤ (p ++ data).length := by simp; omega
        have htake : (p ++ data).take CAPACITY = p ++ data.take t := by
          rw [← hsplit, List.take_left' (by omega)]
        have hdrop : (p ++ data).drop CAPACITY = data.drop t := by
          rw [← hsplit, List.drop_left' (by omega)]
        have hemit : emittedBlocks lz4c (p ++ data) =
            blockRecord (lz4c (p ++ data.take t)) ++
              emittedBlocks lz4c (data.drop t) := by
          unfold emittedBlocks
          rw [chunksFull_eq_cons (p ++ data) hcapfull, htake, hdrop]
          simp
        have hrem : remChunk (p ++ data) = remChunk (data.drop t) := by
          rw [remChunk_eq_drop (p ++ data) hcapfull, hdrop]
        simp [hemit, hrem, List.append_assoc]
      · have hlt : (p ++ data.take t).length < CAPACITY := by omega
        rw [write_block_noop listWr lz4c _ hlt]
        simp only [Option.isSome_none, Bool.false_eq_true, if_false]
        have := ih (data.drop t).length (by simp; omega) (data.drop t) w
          (p ++ data.take t) hlt rfl
        rw [this, hsplit]

/-- Parse the body of a legacy LZ4 container (after the magic) into the list
of compressed block payloads: repeated records of a 4-byte little-endian
length followed by that many payload bytes, until end of data. -/
def parseRecords : List Nat → Option (List (List Nat))
  | [] => some []
  | a :: b :: c :: d :: rest =>
    let n := a + 256 * b + 65536 * c + 16777216 * d
    if rest.length < n then none
    else
      match parseRecords (rest.drop n) with
      | none => none
      | some rs => some (rest.take n :: rs)
  | _ => none
termination_by l => l.length
decreasing_by
  simp only [List.length_drop, List.length_cons]
  omega

/-- Contract of the trusted streaming LZ4 frame decoder (`lz4_flex`'s
`FrameDecoder`) on legacy frames, per the wire format: check the 4-byte
legacy magic, then decompress each length-prefixed block with the raw block
codec `lz4d` and concatenate, failing on any malformed framing. -/
def legacyFrameDecode (lz4d : List Nat → List Nat) (data : List Nat) :
    Option (List Nat) :=
  if data.take 4 = LZ4_LEGACY_MAGIC then
    (parseRecords (data.drop 4)).map (fun rs => concatAll (rs.map lz4d))
  else none

/-- One record parses off the front of the body whenever its payload length
fits in 32 bits. -/
theorem parseRecords_record (c rest : List Nat) (h : c.length < 4294967296) :
    parseRecords (blockRecord c ++ rest) =
      (parseRecords rest).map (fun rs => c :: rs) := by
  have hlen : c.length % 256 + 256 * (c.length / 256 % 256) +
      65536 * (c.length / 65536 % 256) +
      16777216 * (c.length / 16777216 % 256) = c.length := by
    omega
  simp only [blockRecord, le32, List.cons_append, List.nil_append]
  rw [parseRecords]
  simp only [hlen]
  rw [if_neg (by simp)]
  rw [List.drop_left' rfl, List.take_left' rfl]
  cases parseRecords rest with
  | none => rfl
  | some rs => rfl

/-- A sequence of records followed by a tail parses as those records followed
by the records of the tail. -/
theorem parseRecords_concat (cs : List (List Nat)) (rest : List Nat)
    (h : ∀ c ∈ cs, c.length < 4294967296) :
    parseRecords (concatAll (cs.map blockRecord) ++ rest) =
      (parseRecords rest).map (fun rs => cs ++ rs) := by
  induction cs with
  | nil =>
    simp only [List.map_nil, concatAll_nil, List.nil_append]
    cases parseRecords rest with
    | none => rfl
    | some rs => simp
  | cons c cs ih =>
    simp only [List.map_cons, concatAll_cons, List.append_assoc]
    rw [parseRecords_record c _ (h c (by simp)),
      ih (fun x hx => h x (by simp [hx]))]
    cases parseRecords rest with
    | none => rfl
    | some rs => simp

/-- A seekable byte source (`R: Read + Seek`): the full contents plus the
read cursor. -/
structure ByteStream where
  data : List Nat
  pos : Nat
deriving DecidableEq, Repr

/-- `read_exact` into a 4-byte array: succeeds exactly when 4 bytes remain at
the cursor, returning them and advancing the cursor. -/
def ByteStream.readExact4 (s : ByteStream) : Option (List Nat × ByteStream) :=
  if s.pos + 4 ≤ s.data.length then
    some ((s.data.drop s.pos).take 4, { s with pos := s.pos + 4 })
  else none

/-- `Seek::rewind`: reset the cursor to offset 0. -/
def ByteStream.rewind (s : ByteStream) : ByteStream := { s with pos := 0 }

/-- The bytes a full read of the source from its current cursor yields. -/
def readRemaining (s : ByteStream) : List Nat := s.data.drop s.pos

/-- `CompressedFormat { None, Gzip, Lz4Legacy }`. -/
inductive CompressedFormat where
  | None
  | Gzip
  | Lz4Legacy
deriving DecidableEq, Repr

/-- `CompressedReader<R>`: the tagged union over the pass-through source, the
gzip decoder's source, and the LZ4 frame decoder's source.  The decoders are
trusted primitives, so each variant just records the (rewound) source. -/
inductive CompressedReader where
  | none (r : ByteStream)
  | gzip (r : ByteStream)
  | lz4 (r : ByteStream)
deriving DecidableEq, Repr

/-- `CompressedReader::new`: read exactly 4 bytes, rewind, and select the
variant by magic; unrecognized magic falls back to pass-through only when
`raw_if_unknown` is set, else fails with `UnknownFormat`. -/
def CompressedReader.new (reader : ByteStream) (raw_if_unknown : Bool) :
    Except Error CompressedReader :=
  match reader.readExact4 with
  | Option.none => .error .IoError
  | some (magic, r1) =>
    let r2 := r1.rewind
    if magic.take 2 = GZIP_MAGIC then .ok (.gzip r2)
    else if magic = LZ4_LEGACY_MAGIC then .ok (.lz4 r2)
    else if raw_if_unknown then .ok (.none r2)
    else .error .UnknownFormat

/-- `CompressedReader::format`. -/
def CompressedReader.format : CompressedReader → CompressedFormat
  | .none _ => .None
  | .gzip _ => .Gzip
  | .lz4 _ => .Lz4Legacy

/-- `CompressedReader::into_inner`: the underlying source of the active
variant. -/
def CompressedReader.innerStream : CompressedReader → ByteStream
  | .none r => r
  | .gzip r => r
  | .lz4 r => r

/-- Reading a `CompressedReader` to exhaustion: the pass-through variant
yields the remaining source bytes; the gzip and LZ4 variants yield what the
trusted decoders (`gzipD`, the legacy frame decoder over `lz4d`) produce from
the remaining source bytes, `Option.none` standing for a decode failure. -/
def CompressedReader.readToEnd (gzipD : List Nat → Option (List Nat))
    (lz4d : List Nat → List Nat) : CompressedReader → Option (List Nat)
  | .none r => some (readRemaining r)
  | .gzip r => gzipD (readRemaining r)
  | .lz4 r => legacyFrameDecode lz4d (readRemaining r)

/-- `CompressedWriter<W>` over the pure list sink: pass-through, the gzip
encoder (a trusted primitive, modelled by the bytes fed to it so far, to be
compressed with `gzipC` at `finish`), or the legacy block encoder. -/
inductive CompressedWriter where
  | none (w : List Nat)
  | gzip (w : List Nat) (fed : List Nat)
  | lz4Legacy (e : Lz4LegacyEncoder (List Nat))
deriving DecidableEq, Repr

/-- `CompressedWriter::new`: dispatch on the requested format; the legacy
encoder's magic write is the only fallible step. -/
def CompressedWriter.new (w : List Nat) :
    CompressedFormat → Except EncErr CompressedWriter
  | .None => .ok (.none w)
  | .Gzip => .ok (.gzip w [])
  | .Lz4Legacy => (Lz4LegacyEncoder.new listWr w).map .lz4Legacy

/-- `CompressedWriter::format`. -/
def CompressedWriter.format : CompressedWriter → CompressedFormat
  | .none _ => .None
  | .gzip _ _ => .Gzip
  | .lz4Legacy _ => .Lz4Legacy

/-- The `Write::write` impl of `CompressedWriter`: forward to the active
variant. -/
def CompressedWriter.write (lz4c : List Nat → List Nat) :
    CompressedWriter → List Nat → CompressedWriter × Option EncErr
  | .none w, b => (.none (w ++ b), Option.none)
  | .gzip w fed, b => (.gzip w (fed ++ b), Option.none)
  | .lz4Legacy e, b =>
    let r := Lz4LegacyEncoder.write listWr lz4c e b
    (.lz4Legacy r.1, r.2)

/-- `CompressedWriter::finish`: pass-through returns the sink; gzip writes
its compressed stream (trailer included, via the trusted `gzipC`); the legacy
encoder forces its final block. -/
def CompressedWriter.finish (gzipC lz4c : List Nat → List Nat) :
    CompressedWriter → Except EncErr (List Nat)
  | .none w => .ok w
  | .gzip w fed => .ok (w ++ gzipC fed)
  | .lz4Legacy e => Lz4LegacyEncoder.finish listWr lz4c e

/-- `encode(b, format)`: construct a `CompressedWriter` over an empty sink,
write all of `b`, and finish. -/
def encodeBytes (gzipC lz4c : List Nat → List Nat) (fmt : CompressedFormat)
    (b : List Nat) : Except EncErr (List Nat) :=
  match CompressedWriter.new [] fmt with
  | .error e => .error e
  | .ok cw =>
    let r := cw.write lz4c b
    match r.2 with
    | some e => .error e
    | Option.none => r.1.finish gzipC lz4c

/-- `decode(data)`: construct a `CompressedReader` by sniffing (with raw
fallback enabled) and read it to exhaustion. -/
def decodeBytes (gzipD : List Nat → Option (List Nat))
    (lz4d : List Nat → List Nat) (data : List Nat) : Option (List Nat) :=
  match CompressedReader.new ⟨data, 0⟩ true with
  | .error _ => Option.none
  | .ok r => r.readToEnd gzipD lz4d

/-- `decode(encode(b, format))`, `Option.none` standing for a failure on
either side. -/
def decEnc (gzipC lz4c : List Nat → List Nat)
    (gzipD : List Nat → Option (List Nat)) (lz4d : List Nat → List Nat)
    (fmt : CompressedFormat) (b : List Nat) : Option (List Nat) :=
  match encodeBytes gzipC lz4c fmt b with
  | .error _ => Option.none
  | .ok s => decodeBytes gzipD lz4d s

/-- C3: for a seekable source of at least 4 bytes, `CompressedReader::new`
selects its variant exactly by the magic rules: first 2 bytes `1F 8B` give the
Gzip variant (format `Gzip`); else first 4 bytes `02 21 4C 18` give the Lz4
variant (format `Lz4Legacy`); else with raw fallback enabled the pass-through
variant (format `None`); else the `UnknownFormat` error with no variant. -/
theorem c3_magic_dispatch (data : List Nat) (raw : Bool)
    (h4 : 4 ≤ data.length) :
    (data.take 2 = GZIP_MAGIC →
      CompressedReader.new ⟨data, 0⟩ raw = .ok (.gzip ⟨data, 0⟩) ∧
      CompressedReader.format (.gzip ⟨data, 0⟩) = .Gzip) ∧
    (data.take 2 ≠ GZIP_MAGIC → data.take 4 = LZ4_LEGACY_MAGIC →
      CompressedReader.new ⟨data, 0⟩ raw = .ok (.lz4 ⟨data, 0⟩) ∧
      CompressedReader.format (.lz4 ⟨data, 0⟩) = .Lz4Legacy) ∧
    (data.take 2 ≠ GZIP_MAGIC → data.take 4 ≠ LZ4_LEGACY_MAGIC → raw = true →
      CompressedReader.new ⟨data, 0⟩ raw = .ok (.none ⟨data, 0⟩) ∧
      CompressedReader.format (.none ⟨data, 0⟩) = .None) ∧
    (data.take 2 ≠ GZIP_MAGIC → data.take 4 ≠ LZ4_LEGACY_MAGIC → raw = false →
      CompressedReader.new ⟨data, 0⟩ raw = .error .UnknownFormat) := by
  have hre : ByteStream.readExact4 ⟨data, 0⟩ = some (data.take 4, ⟨data, 4⟩) := by
    unfold ByteStream.readExact4
    rw [if_pos (by simpa using h4)]
    simp
  have htt : (data.take 4).take 2 = data.take 2 := by
    rw [List.take_take]
    norm_num
  refine ⟨fun hg => ?_, fun hng hl => ?_, fun hng hnl hraw => ?_,
    fun hng hnl hraw => ?_⟩
  · unfold CompressedReader.new
    rw [hre]
    simp only [htt, if_pos hg]
    exact ⟨rfl, rfl⟩
  · unfold CompressedReader.new
    rw [hre]
    simp only [htt, if_neg hng, if_pos hl]
    exact ⟨rfl, rfl⟩
  · unfold CompressedReader.new
    rw [hre]
    simp only [htt, if_neg hng, if_neg hnl, hraw, if_pos rfl]
    exact ⟨rfl, rfl⟩
  · unfold CompressedReader.new
    rw [hre]
    simp only [htt, if_neg hng, if_neg hnl, hraw]
    rfl

theorem c3_magic_dispatch_witness :
    CompressedReader.new ⟨[0x1f, 0x8b, 0x00, 0x00], 0⟩ false =
      .ok (.gzip ⟨[0x1f, 0x8b, 0x00, 0x00], 0⟩) :=
  ((c3_magic_dispatch [0x1f, 0x8b, 0x00, 0x00] false (by decide)).1
    (by decide)).1

/-- C7: format detection is non-destructive: whenever `CompressedReader::new`
succeeds, the underlying source of the constructed variant holds the original
bytes unmodified with its cursor restored to offset 0, so a subsequent full
read reproduces the original bytes, sniffed magic included. -/
theorem c7_detection_nondestructive (s : ByteStream) (raw : Bool)
    (r : CompressedReader) (h : CompressedReader.new s raw = .ok r) :
    r.innerStream.data = s.data ∧ r.innerStream.pos = 0 ∧
      readRemaining r.innerStream = s.data := by
  unfold CompressedReader.new at h
  cases hre : ByteStream.readExact4 s with
  | none => rw [hre] at h; exact absurd h (by simp)
  | some p =>
    rw [hre] at h
    have hp2 : p.2 = { s with pos := s.pos + 4 } := by
      unfold ByteStream.readExact4 at hre
      split at hre
      · exact (Option.some.injEq _ _ ▸ hre).symm ▸ rfl
      · exact absurd hre (by simp)
    simp only at h
    split at h
    · cases h
      simp [CompressedReader.innerStream, ByteStream.rewind, hp2,
        readRemaining]
    · split at h
      · cases h
        simp [CompressedReader.innerStream, ByteStream.rewind, hp2,
          readRemaining]
      · split at h
        · cases h
          simp [CompressedReader.innerStream, ByteStream.rewind, hp2,
            readRemaining]
        · exact absurd h (by simp)

theorem c7_detection_nondestructive_witness :
    (CompressedReader.innerStream (.none ⟨[9, 8, 7, 6, 5, 4], 0⟩)).data =
      [9, 8, 7, 6, 5, 4] ∧
    (CompressedReader.innerStream (.none ⟨[9, 8, 7, 6, 5, 4], 0⟩)).pos = 0 ∧
    readRemaining (CompressedReader.innerStream (.none ⟨[9, 8, 7, 6, 5, 4], 0⟩)) =
      [9, 8, 7, 6, 5, 4] :=
  c7_detection_nondestructive ⟨[9, 8, 7, 6, 5, 4], 2⟩ true
    (.none ⟨[9, 8, 7, 6, 5, 4], 0⟩) (by rfl)

/-- C8: for a source holding fewer than 4 bytes, `CompressedReader::new`
fails with the propagated I/O error of the short read, regardless of the raw
fallback flag. -/
theorem c8_short_source (s : ByteStream) (raw : Bool)
    (h : s.data.length < 4) :
    CompressedReader.new s raw = .error .IoError := by
  unfold CompressedReader.new ByteStream.readExact4
  rw [if_neg (by omega)]

theorem c8_short_source_witness :
    CompressedReader.new ⟨[1, 2, 3], 0⟩ true = .error .IoError :=
  c8_short_source ⟨[1, 2, 3], 0⟩ true (by decide)

/-- C5: the generic `flush` on an encoder whose buffer is not exactly full
succeeds, writes nothing to the sink, and leaves the state unchanged; a block
is emitted exactly when the buffer is full. -/
theorem c5_flush_noop (σ : Type) (wr : σ → List Nat → σ × Bool)
    (lz4c : List Nat → List Nat) (e : Lz4LegacyEncoder σ)
    (h : e.buf.length < CAPACITY) :
    Lz4LegacyEncoder.flush wr lz4c e = (e, none) ∧
    (∀ (lz4cL : List Nat → List Nat) (w p : List Nat), p.length = CAPACITY →
      Lz4LegacyEncoder.flush listWr lz4cL ⟨some w, p⟩ =
        (⟨some (w ++ blockRecord (lz4cL p)), []⟩, none)) := by
  constructor
  · exact write_block_noop wr lz4c e h
  · intro lz4cL w p hp
    exact write_block_listWr_emit lz4cL w p false (Or.inr (by omega))

theorem c5_flush_noop_witness :
    Lz4LegacyEncoder.flush listWr (fun x => x)
      (⟨some [], [1, 2]⟩ : Lz4LegacyEncoder (List Nat)) =
      (⟨some [], [1, 2]⟩, none) :=
  (c5_flush_noop (List Nat) listWr (fun x => x) ⟨some [], [1, 2]⟩
    (by decide)).1

/-- C6: constructing a `Lz4LegacyEncoder` writes the 4-byte legacy magic to
the sink immediately with zero bytes filled (against the fixed 8 MiB
capacity); constructing and immediately finishing leaves the sink holding the
magic followed by exactly one block record whose pre-compression payload is
empty — its bytes are whatever the block codec returns for empty input. -/
theorem c6_new_then_finish (lz4c : List Nat → List Nat) (s0 : List Nat) :
    Lz4LegacyEncoder.new listWr s0 =
      .ok ⟨some (s0 ++ LZ4_LEGACY_MAGIC), []⟩ ∧
    Lz4LegacyEncoder.finish listWr lz4c ⟨some (s0 ++ LZ4_LEGACY_MAGIC), []⟩ =
      .ok (s0 ++ LZ4_LEGACY_MAGIC ++ blockRecord (lz4c [])) ∧
    CAPACITY = 8388608 := by
  refine ⟨rfl, ?_, by norm_num [CAPACITY]⟩
  unfold Lz4LegacyEncoder.finish
  rw [write_block_listWr_emit lz4c (s0 ++ LZ4_LEGACY_MAGIC) [] true
    (Or.inl rfl)]

/-- C4: dropping an encoder whose sink slot is still occupied performs a
best-effort forced flush whose error is discarded (the drop yields a state,
never an error, and equals the post-state of the forced `write_block`); on the
pure sink, after writing fewer than 8 MiB from a fresh encoder, the dropped
encoder's sink holds the magic followed by the flushed partial block. -/
theorem c4_drop_flushes (σ : Type) (wr : σ → List Nat → σ × Bool)
    (lz4c lz4cL : List Nat → List Nat) (e : Lz4LegacyEncoder σ)
    (data : List Nat) (hs : e.writer.isSome) (hd : data.length < CAPACITY) :
    Lz4LegacyEncoder.dropEnc wr lz4c e =
      (Lz4LegacyEncoder.write_block wr lz4c true e).1 ∧
    (∀ e' : Lz4LegacyEncoder σ, e'.writer = Option.none →
      Lz4LegacyEncoder.dropEnc wr lz4c e' = e') ∧
    Lz4LegacyEncoder.dropEnc listWr lz4cL
        (Lz4LegacyEncoder.write listWr lz4cL
          ⟨some LZ4_LEGACY_MAGIC, []⟩ data).1 =
      ⟨some (LZ4_LEGACY_MAGIC ++ blockRecord (lz4cL data)), []⟩ := by
  refine ⟨?_, fun e' he' => ?_, ?_⟩
  · unfold Lz4LegacyEncoder.dropEnc
    rw [if_pos hs]
  · unfold Lz4LegacyEncoder.dropEnc
    rw [if_neg (by simp [he'])]
  · rw [write_norm lz4cL data LZ4_LEGACY_MAGIC [] (by norm_num [CAPACITY])]
    simp only [List.nil_append]
    have hem : emittedBlocks lz4cL data = [] := by
      unfold emittedBlocks
      rw [chunksFull_eq_nil data hd]
      rfl
    have hrm : remChunk data = data := remChunk_eq_self data hd
    rw [hem, hrm]
    unfold Lz4LegacyEncoder.dropEnc
    rw [if_pos (by simp)]
    rw [write_block_listWr_emit lz4cL (LZ4_LEGACY_MAGIC ++ []) data true
      (Or.inl rfl)]
    simp

theorem c4_drop_flushes_witness :
    Lz4LegacyEncoder.dropEnc listWr (fun x => x)
        (Lz4LegacyEncoder.write listWr (fun x => x)
          ⟨some LZ4_LEGACY_MAGIC, []⟩ [7]).1 =
      ⟨some (LZ4_LEGACY_MAGIC ++ blockRecord [7]), []⟩ :=
  (c4_drop_flushes (List Nat) listWr (fun x => x) (fun x => x)
    ⟨some [], []⟩ [7] (by decide) (by decide)).2.2

/-- Full normal form of `encode(b, Lz4Legacy)` on the pure sink: magic, one
block record per full 8 MiB chunk, then one forced final block record holding
the (possibly empty) trailing partial chunk. -/
theorem encode_lz4_norm (gzC lz4c : List Nat → List Nat) (b : List Nat) :
    encodeBytes gzC lz4c .Lz4Legacy b =
      .ok (LZ4_LEGACY_MAGIC ++ emittedBlocks lz4c b ++
        blockRecord (lz4c (remChunk b))) := by
  have h1 : CompressedWriter.new [] .Lz4Legacy =
      .ok (.lz4Legacy ⟨some LZ4_LEGACY_MAGIC, []⟩) := rfl
  unfold encodeBytes
  rw [h1]
  simp only [CompressedWriter.write]
  rw [write_norm lz4c b LZ4_LEGACY_MAGIC [] (by norm_num [CAPACITY])]
  simp only [List.nil_append, CompressedWriter.finish]
  unfold Lz4LegacyEncoder.finish
  rw [write_block_listWr_emit lz4c _ _ true (Or.inl rfl)]

theorem parseRecords_nil : parseRecords [] = some [] := by
  unfold parseRecords
  rfl

/-- Parsing the body of an encoded stream recovers the compressed chunk
payloads: the compressed full chunks followed by the compressed trailing
chunk. -/
theorem parse_encode_lz4 (lz4c : List Nat → List Nat) (b : List Nat)
    (hlen : ∀ x, x.length ≤ CAPACITY → (lz4c x).length < 4294967296) :
    parseRecords ((LZ4_LEGACY_MAGIC ++ emittedBlocks lz4c b ++
        blockRecord (lz4c (remChunk b))).drop 4) =
      some ((chunksFull b).map lz4c ++ [lz4c (remChunk b)]) := by
  have hdrop : (LZ4_LEGACY_MAGIC ++ emittedBlocks lz4c b ++
      blockRecord (lz4c (remChunk b))).drop 4 =
      emittedBlocks lz4c b ++ blockRecord (lz4c (remChunk b)) := by
    rw [List.append_assoc]
    rfl
  rw [hdrop]
  have hmm : emittedBlocks lz4c b =
      concatAll (((chunksFull b).map lz4c).map blockRecord) := by
    unfold emittedBlocks
    rw [List.map_map]
    rfl
  rw [hmm, parseRecords_concat ((chunksFull b).map lz4c) _ (by
    intro c hc
    rcases List.mem_map.mp hc with ⟨ch, hch, rfl⟩
    exact hlen ch (chunksFull_mem_length hch))]
  rw [← List.append_nil (blockRecord (lz4c (remChunk b))),
    parseRecords_record _ [] (hlen _ (le_of_lt (remChunk_length_lt b))),
    parseRecords_nil]
  rfl

/-- `encode(b, Lz4Legacy)` for `b` of exactly one full block: the magic, the
full block's record, and a forced trailing record compressed from the empty
buffer. -/
theorem encode_lz4_exact (gzC lz4c : List Nat → List Nat) (b : List Nat)
    (hb : b.length = CAPACITY) :
    encodeBytes gzC lz4c .Lz4Legacy b =
      .ok (LZ4_LEGACY_MAGIC ++ blockRecord (lz4c b) ++
        blockRecord (lz4c [])) := by
  rw [encode_lz4_norm]
  have h1 : chunksFull b = [b] := by
    rw [chunksFull_eq_cons b (by omega), List.take_of_length_le (by omega),
      List.drop_eq_nil_of_le (by omega),
      chunksFull_eq_nil [] (by norm_num [CAPACITY])]
  have h2 : remChunk b = [] := by
    rw [remChunk_eq_drop b (by omega), List.drop_eq_nil_of_le (by omega),
      remChunk_eq_self [] (by norm_num [CAPACITY])]
  simp [emittedBlocks, h1, h2, List.append_assoc]

/-- `encode(b, Lz4Legacy)` for `b` of one full block plus one byte: the
magic, the full block's record, and the 1-byte trailing block's record. -/
theorem encode_lz4_plus_one (gzC lz4c : List Nat → List Nat) (b : List Nat)
    (hb : b.length = CAPACITY + 1) :
    encodeBytes gzC lz4c .Lz4Legacy b =
      .ok (LZ4_LEGACY_MAGIC ++ blockRecord (lz4c (b.take CAPACITY)) ++
        blockRecord (lz4c (b.drop CAPACITY))) := by
  rw [encode_lz4_norm]
  have hdl : (b.drop CAPACITY).length = 1 := by
    simp [List.length_drop]
    omega
  have h1 : chunksFull b = [b.take CAPACITY] := by
    rw [chunksFull_eq_cons b (by omega),
      chunksFull_eq_nil (b.drop CAPACITY) (by rw [hdl]; norm_num [CAPACITY])]
  have h2 : remChunk b = b.drop CAPACITY := by
    rw [remChunk_eq_drop b (by omega),
      remChunk_eq_self (b.drop CAPACITY) (by rw [hdl]; norm_num [CAPACITY])]
  simp [emittedBlocks, h1, h2, List.append_assoc]

/-- The body of a magic-plus-two-records stream parses as exactly those two
records. -/
theorem parse_two_records (c1 c2 : List Nat) (h1 : c1.length < 4294967296)
    (h2 : c2.length < 4294967296) :
    parseRecords ((LZ4_LEGACY_MAGIC ++ blockRecord c1 ++
        blockRecord c2).drop 4) = some [c1, c2] := by
  have hdrop : (LZ4_LEGACY_MAGIC ++ blockRecord c1 ++ blockRecord c2).drop 4 =
      blockRecord c1 ++ blockRecord c2 := by
    rw [List.append_assoc]
    rfl
  rw [hdrop, parseRecords_record c1 _ h1,
    ← List.append_nil (blockRecord c2), parseRecords_record c2 [] h2,
    parseRecords_nil]
  rfl

/-- C2 counterexample: writing exactly `CAPACITY = 8,388,608` bytes and
finishing produces TWO block records — the full block plus an empty trailing
block forced by `finish` — not one.  Instantiated with the identity block
codec, the parsed record payloads are the full input followed by the empty
list. -/
theorem c2_counterexample :
    (match encodeBytes (fun x => x) (fun x => x) CompressedFormat.Lz4Legacy
        (List.replicate CAPACITY 0) with
      | .ok s => parseRecords (s.drop 4)
      | .error _ => Option.none) =
      some [List.replicate CAPACITY 0, []] ∧
    ([List.replicate CAPACITY 0, ([] : List Nat)].length ≠ 1) := by
  constructor
  · rw [encode_lz4_exact (fun x => x) (fun x => x) _ (by simp)]
    simp only
    rw [parse_two_records _ _ (by simp; norm_num [CAPACITY]) (by simp)]
  · simp

/-- C2 amended: writing exactly 8,388,608 bytes then finishing produces the
magic followed by exactly two block records — the full 8 MiB block and a
trailing record with zero-length pre-compression payload; writing 8,388,609
bytes produces exactly two block records, the second's pre-compression
payload being exactly 1 byte. -/
theorem c2_block_boundary (gzC lz4c lz4d : List Nat → List Nat)
    (b b' : List Nat)
    (hlen : ∀ x, x.length ≤ CAPACITY → (lz4c x).length < 4294967296)
    (hrt : ∀ x, x.length ≤ CAPACITY → lz4d (lz4c x) = x)
    (hb : b.length = CAPACITY) (hb' : b'.length = CAPACITY + 1) :
    encodeBytes gzC lz4c .Lz4Legacy b =
      .ok (LZ4_LEGACY_MAGIC ++ blockRecord (lz4c b) ++
        blockRecord (lz4c [])) ∧
    (parseRecords ((LZ4_LEGACY_MAGIC ++ blockRecord (lz4c b) ++
        blockRecord (lz4c [])).drop 4)).map (List.map lz4d) =
      some [b, []] ∧
    encodeBytes gzC lz4c .Lz4Legacy b' =
      .ok (LZ4_LEGACY_MAGIC ++ blockRecord (lz4c (b'.take CAPACITY)) ++
        blockRecord (lz4c (b'.drop CAPACITY))) ∧
    (parseRecords ((LZ4_LEGACY_MAGIC ++
        blockRecord (lz4c (b'.take CAPACITY)) ++
        blockRecord (lz4c (b'.drop CAPACITY))).drop 4)).map
          (List.map lz4d) =
      some [b'.take CAPACITY, b'.drop CAPACITY] ∧
    (b'.drop CAPACITY).length = 1 := by
  have hcap : CAPACITY = 8388608 := by norm_num [CAPACITY]
  have hdl : (b'.drop CAPACITY).length = 1 := by
    simp [List.length_drop]
    omega
  refine ⟨encode_lz4_exact gzC lz4c b hb, ?_, encode_lz4_plus_one gzC lz4c b' hb',
    ?_, hdl⟩
  · rw [parse_two_records _ _ (hlen b (by omega)) (hlen [] (by
      norm_num [CAPACITY]))]
    simp [hrt b (by omega), hrt [] (by norm_num [CAPACITY])]
  · rw [parse_two_records _ _ (hlen _ (by simp [List.length_take]))
      (hlen _ (by omega))]
    simp [hrt (b'.take CAPACITY) (by simp [List.length_take]),
      hrt (b'.drop CAPACITY) (by omega)]

theorem c2_block_boundary_witness :
    ((List.replicate (CAPACITY + 1) (0 : Nat)).drop CAPACITY).length = 1 :=
  (c2_block_boundary (fun x => x) (fun x => x) (fun x => x)
    (List.replicate CAPACITY 0) (List.replicate (CAPACITY + 1) 0)
    (fun x hx => lt_of_le_of_lt hx (by norm_num [CAPACITY]))
    (fun x _ => rfl) (by simp) (by simp)).2.2.2.2

/-- C10: the Legacy Block Encoder's output is independent of write chunking:
from any reachable state (buffer not full) on the pure sink, `write(a)` then
`write(b)` yields exactly the same encoder state — and hence the same bytes
appended to the sink — as the single call `write(a ++ b)`, and neither call
errors. -/
theorem c10_chunking_independence (lz4c : List Nat → List Nat)
    (w p a b : List Nat) (hp : p.length < CAPACITY) :
    (Lz4LegacyEncoder.write listWr lz4c ⟨some w, p⟩ a).2 = none ∧
    Lz4LegacyEncoder.write listWr lz4c ⟨some w, p⟩ (a ++ b) =
      Lz4LegacyEncoder.write listWr lz4c
        (Lz4LegacyEncoder.write listWr lz4c ⟨some w, p⟩ a).1 b := by
  rw [write_norm lz4c a w p hp]
  refine ⟨rfl, ?_⟩
  simp only
  rw [write_norm lz4c (a ++ b) w p hp,
    write_norm lz4c b (w ++ emittedBlocks lz4c (p ++ a)) (remChunk (p ++ a))
      (remChunk_length_lt _)]
  have h := chunksFull_append (p ++ a) b
  have hass : p ++ (a ++ b) = (p ++ a) ++ b := (List.append_assoc p a b).symm
  have hem : emittedBlocks lz4c (p ++ (a ++ b)) =
      emittedBlocks lz4c (p ++ a) ++
        emittedBlocks lz4c (remChunk (p ++ a) ++ b) := by
    unfold emittedBlocks
    rw [hass, h.1, List.map_append, concatAll_append]
  have hrm : remChunk (p ++ (a ++ b)) = remChunk (remChunk (p ++ a) ++ b) := by
    rw [hass, h.2]
  rw [hem, hrm, List.append_assoc]

theorem c10_chunking_independence_witness :
    Lz4LegacyEncoder.write listWr (fun x => x) ⟨some [], []⟩ ([1] ++ [2]) =
      Lz4LegacyEncoder.write listWr (fun x => x)
        (Lz4LegacyEncoder.write listWr (fun x => x) ⟨some [], []⟩ [1]).1 [2] :=
  (c10_chunking_independence (fun x => x) [] [] [1] [2] (by decide)).2

/-- A `write_block` whose encoder still holds its sink never takes the
`unwrap`-panic path. -/
theorem write_block_no_panic {σ : Type} (wr : σ → List Nat → σ × Bool)
    (lz4c : List Nat → List Nat) (force : Bool) (e : Lz4LegacyEncoder σ)
    (hw : e.writer.isSome) :
    (Lz4LegacyEncoder.write_block wr lz4c force e).2 ≠ some .panic := by
  unfold Lz4LegacyEncoder.write_block
  split
  · simp
  · cases hws : e.writer with
    | none => rw [hws] at hw; exact absurd hw (by simp)
    | some w =>
      simp only
      split
      · simp
      · split
        · simp
        · simp

/-- `write_block` keeps the sink slot occupied whenever it was occupied. -/
theorem write_block_writer_some {σ : Type} (wr : σ → List Nat → σ × Bool)
    (lz4c : List Nat → List Nat) (force : Bool) (e : Lz4LegacyEncoder σ)
    (hw : e.writer.isSome) :
    (Lz4LegacyEncoder.write_block wr lz4c force e).1.writer.isSome := by
  unfold Lz4LegacyEncoder.write_block
  split
  · exact hw
  · cases hws : e.writer with
    | none => rw [hws] at hw; exact absurd hw (by simp)
    | some w =>
      simp only
      split
      · simp
      · split
        · simp
        · simp

/-- Invariant preservation of `write` over an arbitrary fallible sink: it
never panics, and on success the buffer is strictly below capacity and the
sink slot still occupied. -/
theorem write_inv {σ : Type} (wr : σ → List Nat → σ × Bool)
    (lz4c : List Nat → List Nat) (e : Lz4LegacyEncoder σ) (data : List Nat)
    (h1 : e.buf.length < CAPACITY) (h2 : e.writer.isSome) :
    (Lz4LegacyEncoder.write wr lz4c e data).2 ≠ some .panic ∧
    ((Lz4LegacyEncoder.write wr lz4c e data).2 = none →
      (Lz4LegacyEncoder.write wr lz4c e data).1.buf.length < CAPACITY ∧
      (Lz4LegacyEncoder.write wr lz4c e data).1.writer.isSome) := by
  generalize hn : data.length = n
  induction n using Nat.strong_induction_on generalizing data e with
  | _ n ih =>
    by_cases hd : data = []
    · subst hd
      rw [write_eq, if_pos rfl]
      exact ⟨by simp, fun _ => ⟨h1, h2⟩⟩
    · rw [write_eq, if_neg hd]
      simp only
      set t := min data.length (CAPACITY - e.buf.length) with htdef
      have hdl : 0 < data.length := List.length_pos.mpr hd
      have ht1 : 1 ≤ t := by omega
      have he1w : ({ e with buf := e.buf ++ data.take t } :
          Lz4LegacyEncoder σ).writer.isSome := h2
      have hnp := write_block_no_panic wr lz4c false
        { e with buf := e.buf ++ data.take t } he1w
      have hws := write_block_writer_some wr lz4c false
        { e with buf := e.buf ++ data.take t } he1w
      cases hr : Lz4LegacyEncoder.write_block wr lz4c false
          { e with buf := e.buf ++ data.take t } with
      | mk e2 o =>
        rw [hr] at hnp hws
        cases o with
        | some err =>
          simp only [Option.isSome_some, if_true]
          exact ⟨by simpa using hnp, fun habs => absurd habs (by simp)⟩
        | none =>
          simp only [Option.isSome_none, Bool.false_eq_true, if_false]
          have hbuf : e2.buf.length < CAPACITY := by
            rcases write_block_false_none _ _ _ _ hr with ⟨hlt, heq⟩ | hnil
            · rw [heq]; exact hlt
            · rw [hnil]
              norm_num [CAPACITY]
          exact ih (data.drop t).length (by simp; omega) e2 (data.drop t)
            hbuf (by simpa using hws) rfl

/-- `finish` from a state holding its sink never panics: the final forced
`write_block` finds the slot occupied, and on its success the `take().unwrap()`
finds it occupied as well. -/
theorem finish_no_panic {σ : Type} (wr : σ → List Nat → σ × Bool)
    (lz4c : List Nat → List Nat) (e : Lz4LegacyEncoder σ)
    (h2 : e.writer.isSome) :
    Lz4LegacyEncoder.finish wr lz4c e ≠ .error .panic := by
  unfold Lz4LegacyEncoder.finish
  have hnp := write_block_no_panic wr lz4c true e h2
  have hws := write_block_writer_some wr lz4c true e h2
  cases hwb : Lz4LegacyEncoder.write_block wr lz4c true e with
  | mk e1 o =>
    rw [hwb] at hnp hws
    cases o with
    | some err =>
      simp only
      intro hcontra
      apply hnp
      rw [show err = EncErr.panic from by
        cases hcontra
        rfl]
    | none =>
      simp only
      cases hw1 : e1.writer with
      | none => rw [hw1] at hws; exact absurd hws (by simp)
      | some w => simp

/-- C9: invariants of reachable encoder states: construction establishes an
empty buffer (0 ≤ fill < capacity) with the sink slot occupied; the buffer
copy in `write` is always in bounds; `write` from an invariant state never
panics and, on success, re-establishes the invariant; `flush` from an
invariant state is a successful no-op preserving it; and `finish` never takes
the `unwrap` panic path. -/
theorem c9_reachable_invariant (σ : Type) (wr : σ → List Nat → σ × Bool)
    (lz4c : List Nat → List Nat) (w0 : σ) (e : Lz4LegacyEncoder σ)
    (data : List Nat) (h1 : e.buf.length < CAPACITY) (h2 : e.writer.isSome) :
    (∀ e', Lz4LegacyEncoder.new wr w0 = .ok e' →
      e'.n_filled = 0 ∧ e'.n_filled < CAPACITY ∧ e'.writer.isSome) ∧
    e.buf.length + min data.length (CAPACITY - e.buf.length) ≤ CAPACITY ∧
    (Lz4LegacyEncoder.write wr lz4c e data).2 ≠ some .panic ∧
    ((Lz4LegacyEncoder.write wr lz4c e data).2 = none →
      (Lz4LegacyEncoder.write wr lz4c e data).1.buf.length < CAPACITY ∧
      (Lz4LegacyEncoder.write wr lz4c e data).1.writer.isSome) ∧
    Lz4LegacyEncoder.flush wr lz4c e = (e, none) ∧
    Lz4LegacyEncoder.finish wr lz4c e ≠ .error .panic := by
  refine ⟨fun e' hok => ?_, by omega, (write_inv wr lz4c e data h1 h2).1,
    (write_inv wr lz4c e data h1 h2).2, write_block_noop wr lz4c e h1,
    finish_no_panic wr lz4c e h2⟩
  unfold Lz4LegacyEncoder.new at hok
  simp only at hok
  split at hok
  · cases hok
    refine ⟨rfl, ?_, by simp⟩
    norm_num [Lz4LegacyEncoder.n_filled, CAPACITY]
  · exact absurd hok (by simp)

theorem c9_reachable_invariant_witness :
    Lz4LegacyEncoder.finish listWr (fun x => x)
      (⟨some [], []⟩ : Lz4LegacyEncoder (List Nat)) ≠ .error .panic :=
  (c9_reachable_invariant (List Nat) listWr (fun x => x) [] ⟨some [], []⟩
    [1] (by decide) (by decide)).2.2.2.2.2

theorem encode_none_norm (gzC lz4c : List Nat → List Nat) (b : List Nat) :
    encodeBytes gzC lz4c .None b = .ok b := rfl

theorem encode_gzip_norm (gzC lz4c : List Nat → List Nat) (b : List Nat) :
    encodeBytes gzC lz4c .Gzip b = .ok (gzC b) := rfl

/-- Sniffing from offset 0 on a source of at least 4 bytes, as a single
conditional normal form. -/
theorem new_sniff (s : List Nat) (raw : Bool) (h4 : 4 ≤ s.length) :
    CompressedReader.new ⟨s, 0⟩ raw =
      (if s.take 2 = GZIP_MAGIC then .ok (.gzip ⟨s, 0⟩)
       else if s.take 4 = LZ4_LEGACY_MAGIC then .ok (.lz4 ⟨s, 0⟩)
       else if raw then .ok (.none ⟨s, 0⟩) else .error .UnknownFormat) := by
  have hre : ByteStream.readExact4 ⟨s, 0⟩ = some (s.take 4, ⟨s, 4⟩) := by
    unfold ByteStream.readExact4
    rw [if_pos (by simpa using h4)]
    simp
  have htt : (s.take 4).take 2 = s.take 2 := by
    rw [List.take_take]
    norm_num
  unfold CompressedReader.new
  rw [hre]
  simp only [htt]
  rfl

/-- C1 amended: the encode-then-decode round trip holds unconditionally for
the Gzip and LegacyLz4Block formats (under the trusted codec contracts:
gzip decompression inverts compression, gzip output carries the `1F 8B` magic
and is at least 4 bytes; LZ4 block decompression inverts compression on
blocks of at most 8 MiB, whose compressed size fits in 32 bits); for format
None it holds for inputs of at least 4 bytes that do not start with the gzip
or legacy-LZ4 magics — sniffing cannot identify shorter or magic-prefixed raw
inputs. -/
theorem c1_roundtrip_amended (gzC lz4c : List Nat → List Nat)
    (gzD : List Nat → Option (List Nat)) (lz4d : List Nat → List Nat)
    (hgz_rt : ∀ x, gzD (gzC x) = some x)
    (hgz_magic : ∀ x, (gzC x).take 2 = GZIP_MAGIC)
    (hgz_len : ∀ x, 4 ≤ (gzC x).length)
    (hlz_rt : ∀ x, x.length ≤ CAPACITY → lz4d (lz4c x) = x)
    (hlz_len : ∀ x, x.length ≤ CAPACITY → (lz4c x).length < 4294967296) :
    (∀ b, decEnc gzC lz4c gzD lz4d .Gzip b = some b) ∧
    (∀ b, decEnc gzC lz4c gzD lz4d .Lz4Legacy b = some b) ∧
    (∀ b, 4 ≤ b.length → b.take 2 ≠ GZIP_MAGIC →
      b.take 4 ≠ LZ4_LEGACY_MAGIC →
      decEnc gzC lz4c gzD lz4d .None b = some b) := by
  refine ⟨fun b => ?_, fun b => ?_, fun b h4 hng hnl => ?_⟩
  · unfold decEnc
    rw [encode_gzip_norm]
    simp only
    unfold decodeBytes
    rw [new_sniff (gzC b) true (hgz_len b), if_pos (hgz_magic b)]
    simp only [CompressedReader.readToEnd, readRemaining, List.drop_zero]
    exact hgz_rt b
  · unfold decEnc
    rw [encode_lz4_norm gzC lz4c b]
    simp only
    unfold decodeBytes
    have hs2 : (LZ4_LEGACY_MAGIC ++ emittedBlocks lz4c b ++
        blockRecord (lz4c (remChunk b))).take 2 = [0x02, 0x21] := by
      rw [List.append_assoc]
      rfl
    have hs4 : (LZ4_LEGACY_MAGIC ++ emittedBlocks lz4c b ++
        blockRecord (lz4c (remChunk b))).take 4 = LZ4_LEGACY_MAGIC := by
      rw [List.append_assoc]
      rfl
    have hsl : 4 ≤ (LZ4_LEGACY_MAGIC ++ emittedBlocks lz4c b ++
        blockRecord (lz4c (remChunk b))).length := by
      simp [LZ4_LEGACY_MAGIC]
    rw [new_sniff _ true hsl, if_neg (by rw [hs2]; decide), if_pos hs4]
    simp only [CompressedReader.readToEnd, readRemaining, List.drop_zero]
    unfold legacyFrameDecode
    rw [if_pos hs4, parse_encode_lz4 lz4c b hlz_len]
    have hmap : ((chunksFull b).map lz4c ++ [lz4c (remChunk b)]).map lz4d =
        chunksFull b ++ [remChunk b] := by
      rw [List.map_append, List.map_map]
      have h1 : (chunksFull b).map (lz4d ∘ lz4c) = (chunksFull b).map id :=
        List.map_congr_left
          (fun c hc => hlz_rt c (chunksFull_mem_length hc))
      rw [h1, List.map_id]
      simp [hlz_rt _ (le_of_lt (remChunk_length_lt b))]
    simp only [Option.map_some']
    rw [hmap, concatAll_append, concatAll_cons, concatAll_nil,
      List.append_nil, concatAll_chunksFull]
  · unfold decEnc
    rw [encode_none_norm]
    simp only
    unfold decodeBytes
    rw [new_sniff b true h4, if_neg hng, if_neg hnl, if_pos rfl]
    simp [CompressedReader.readToEnd, readRemaining]

/-- C1 counterexample: for format None and the empty input, the encoded sink
is empty, so the sniffing constructor fails with a short-read I/O error and
the round trip does not return the original bytes (regardless of the trusted
codecs, which the None path never consults). -/
theorem c1_roundtrip_counterexample :
    decEnc (fun x => x) (fun x => x) (fun x => some x) (fun x => x)
      CompressedFormat.None [] ≠ some [] := by
  decide

theorem c1_roundtrip_witness :
    decEnc (fun b => [0x1f, 0x8b, 0x00, 0x00] ++ b) (fun x => x)
      (fun d => some (d.drop 4)) (fun x => x)
      CompressedFormat.Lz4Legacy [5, 6, 7] = some [5, 6, 7] :=
  (c1_roundtrip_amended (fun b => [0x1f, 0x8b, 0x00, 0x00] ++ b)
    (fun x => x) (fun d => some (d.drop 4)) (fun x => x)
    (fun x => by simp) (fun x => by simp [GZIP_MAGIC]) (fun x => by simp)
    (fun x _ => rfl)
    (fun x hx => lt_of_le_of_lt hx (by norm_num [CAPACITY]))).2.1 [5, 6, 7]

end AvbrootCompression
